import Mathlib

/-!
Shallow embedding of the "thoughts" site: the hot-swap synchronization
engine (site.go), document construction and rendering (document.go), and
the caching content-source decorator (ghclient.go).

Bytes are modelled as lists of characters (Go strings/byte slices carry
text here).  Fallible operations return `Option`/`Except`.  External
collaborators (the network, the markdown transform) enter as explicit
parameters supplying their observable results.
-/

abbrev Bytes := List Char

/-- `strings.HasSuffix s t` : `t` is a suffix of `s`. -/
def hasSuffix (s t : String) : Bool := t.data.isSuffixOf s.data

/-- `strings.TrimSuffix s t` : remove one trailing occurrence of `t` from `s`,
when present. -/
def trimSuffix (s t : String) : String :=
  if hasSuffix s t then ⟨s.data.take (s.data.length - t.data.length)⟩ else s

/-! ## document.go: link rewriting

`linkRE = (\[[^]]+\]\(\.\/[^)]+?)\.md(\))` with replacement `$1$2`.
At a given start position the match is deterministic: the link text runs to
the first `]` (the class excludes `]`), the lazy target runs to the first
`)` (the class excludes `)`), and the region before that `)` must end in
`.md` with a nonempty remainder.  `ReplaceAllString` takes leftmost,
non-overlapping matches and resumes after each match.
-/

/-- Split a character list at the first occurrence of `stop`: returns the
part before it and the part after it, or `none` if `stop` never occurs. -/
def splitUntil (stop : Char) : List Char → Option (List Char × List Char)
  | [] => none
  | c :: rest =>
    if c = stop then some ([], rest)
    else
      match splitUntil stop rest with
      | none => none
      | some (a, b) => some (c :: a, b)

/-- The `[^)]+?\.md\)` stage of `linkRE`: `region` is everything between
`(./` and the first `)`.  The lazy target plus the literal `.md` fill the
region exactly when it ends in `.md` with at least one character before
(length at least 4).  On success, emit the rewritten match (final `.md`
deleted). -/
def matchRegion (t region rest4 : List Char) : Option (List Char × List Char) :=
  if 4 ≤ region.length ∧ ['.', 'm', 'd'].isSuffixOf region then
    some ('[' :: t ++ ']' :: '(' :: '.' :: '/' ::
            (region.take (region.length - 3) ++ [')']), rest4)
  else none

/-- The `\(\.\/` stage of `linkRE`: after the link text, require the
literal `(./` and a closing `)` further on. -/
def matchTarget (t rest2 : List Char) : Option (List Char × List Char) :=
  match rest2 with
  | c1 :: c2 :: c3 :: rest3 =>
    if c1 = '(' ∧ c2 = '.' ∧ c3 = '/' then
      match splitUntil ')' rest3 with
      | none => none
      | some (region, rest4) => matchRegion t region rest4
    else none
  | _ => none

/-- The `[^]]+\]` stage of `linkRE`: the link text runs to the first `]`
and must be nonempty. -/
def matchText (rest : List Char) : Option (List Char × List Char) :=
  match splitUntil ']' rest with
  | none => none
  | some (t, rest2) => if t = [] then none else matchTarget t rest2

/-- Try to match `linkRE` at the head of `cs`.  On success, return the
replacement text for the matched region (the match with its final `.md`
deleted) and the remainder of the input after the match. -/
def matchLinkAt (cs : List Char) : Option (List Char × List Char) :=
  match cs with
  | [] => none
  | c :: rest => if c = '[' then matchText rest else none

/-- `linkRE.ReplaceAllString`, fuelled scan: at each position either rewrite
a leftmost match and resume after it, or copy one character. -/
def rewriteAux : Nat → List Char → List Char
  | 0, cs => cs
  | _ + 1, [] => []
  | fuel + 1, c :: rest =>
    match matchLinkAt (c :: rest) with
    | some (out, rest') => out ++ rewriteAux fuel rest'
    | none => c :: rewriteAux fuel rest

/-- The contents cleanup performed by `newDocument`. -/
def rewriteLinks (cs : List Char) : List Char := rewriteAux cs.length cs

/-- A document: logical path, (rewritten) raw contents, memoized render
cache (`nil`/`none` until `Render` first runs). -/
structure document where
  path : String
  contents : Bytes
  cache : Option Bytes
deriving DecidableEq, Repr

/-- `newDocument`: applies the link rewrite; the Go constructor's error is
always nil. -/
def newDocument (path : String) (contents : Bytes) : document :=
  { path := path, contents := rewriteLinks contents, cache := none }

/-- Outcome of one `(*document).Render` call: the (possibly updated)
document, the returned bytes, and whether the markdown transform ran. -/
structure RenderResult where
  doc : document
  out : Bytes
  transformed : Bool
deriving DecidableEq, Repr

/-- `(*document).Render`.  The markdown pipeline is out of scope; it is
modelled from the spec as a pure function `transform` from raw bytes to
rendered bytes, passed explicitly. -/
def document.Render (transform : Bytes → Bytes) (d : document) : RenderResult :=
  match d.cache with
  | some c => ⟨d, c, false⟩
  | none =>
    let out := transform d.contents
    ⟨{ d with cache := some out }, out, true⟩

/-! ## site.go: file trees, extraction, the repo slots, the sync engine

An `fs.FS` is modelled by the sequence of entries `fs.WalkDir` visits, in
visit order.  Each entry carries its path (as slash-separated segments),
whether it is a directory, whether walking/reading it fails, and its
contents. -/

structure FSEntry where
  path : List String
  isDir : Bool
  err : Bool
  content : Bytes
deriving DecidableEq, Repr

/-- `d.Name()`: the base name (last path segment). -/
def FSEntry.name (e : FSEntry) : String := e.path.getLastD ""

/-- `(*repo).extractDocuments`: walk the tree; abort on a walk/read error;
skip directories; skip entries whose name is neither `README.md` nor
`.md`-suffixed; for kept files, drop the first path segment (the archive
wrapper directory) and build a document. -/
def extractDocuments : List FSEntry → Except String (List document)
  | [] => .ok []
  | e :: rest =>
    if e.err then .error "failed to walk dir"
    else if e.isDir then extractDocuments rest
    else if e.name ≠ "README.md" ∧ hasSuffix e.name ".md" = false then
      extractDocuments rest
    else
      match extractDocuments rest with
      | .error msg => .error msg
      | .ok docs =>
        .ok (newDocument (String.intercalate "/" e.path.tail) e.content :: docs)

/-- Go map assignment `m[k] = v` on an association list: replace the
binding of `k` if present, else append it. -/
def setKey : List (String × document) → String → document → List (String × document)
  | [], k, v => [(k, v)]
  | (k', v') :: rest, k, v =>
    if k' = k then (k, v) :: rest else (k', v') :: setKey rest k v

/-- Go map read `m[k]` on an association list. -/
def getKey : List (String × document) → String → Option document
  | [], _ => none
  | (k', v') :: rest, k => if k' = k then some v' else getKey rest k

/-- One repo slot: the recorded fingerprint, the index document, and the
path-keyed document map. -/
structure repo where
  hash : String
  index : Option document
  documents : List (String × document)
deriving DecidableEq, Repr

/-- `newRepo`: zero-valued hash and index, empty (but allocated) map. -/
def newRepo : repo :=
  { hash := "", index := none, documents := [] }

/-- The loop body of `(*repo).indexDocuments` for one document. -/
def indexStep (r : repo) (d : document) : repo :=
  if d.path = "README.md" then { r with index := some d }
  else { r with documents := setKey r.documents (trimSuffix d.path ".md") d }

/-- `(*repo).indexDocuments`: fold the loop body over the list, then fail
exactly when the slot's index is still unset.  The mutations performed by
the loop persist even when the error is returned. -/
def indexDocuments (r : repo) (docs : List document) : repo × Option String :=
  let r' := docs.foldl indexStep r
  if r'.index = none then (r', some "no index document found") else (r', none)

/-- What the file provider answers during one `Sync` attempt: the
`LastHash` result and the `Contents` result (`none` = error). -/
structure SyncEnv where
  lastHash : Option String
  contents : Option (List FSEntry)
deriving DecidableEq, Repr

/-- Outcome of one `(*repo).Sync` call: the slot afterwards, the returned
error, and whether `Contents` (the full-tree pull) was invoked. -/
structure SyncResult where
  repo : repo
  err : Option String
  pulled : Bool
deriving DecidableEq, Repr

/-- `(*repo).Sync`.  Note that the slot's `hash` field is never assigned:
the source compares `hash == r.hash` but records nothing. -/
def repo.Sync (r : repo) (env : SyncEnv) : SyncResult :=
  match env.lastHash with
  | none => ⟨r, some "failed to get last hash", false⟩
  | some h =>
    if h = r.hash then ⟨r, none, false⟩
    else
      match env.contents with
      | none => ⟨r, some "failed to get contents", true⟩
      | some fs =>
        match extractDocuments fs with
        | .error e => ⟨r, some ("failed to extract documents: " ++ e), true⟩
        | .ok docs =>
          let p := indexDocuments r docs
          ⟨p.1, p.2, true⟩

/-- The site's sync state: which slot the `activeRepo` pointer selects,
and the two slots `versionA`/`versionB`. -/
structure site where
  activeIsA : Bool
  versionA : repo
  versionB : repo
deriving DecidableEq, Repr

/-- The slot the `activeRepo` pointer currently designates. -/
def site.activeRepo (s : site) : repo :=
  if s.activeIsA then s.versionA else s.versionB

/-- One ticker iteration of `(*site).syncRepos`: sync the slot that is not
active; on success flip `activeRepo` to it; on error return the wrapped
error (which ends the loop). -/
def syncTick (s : site) (env : SyncEnv) : site × Option String :=
  if s.activeIsA then
    let res := s.versionB.Sync env
    match res.err with
    | some e => ({ s with versionB := res.repo }, some ("failed to sync repo B: " ++ e))
    | none => ({ s with versionB := res.repo, activeIsA := false }, none)
  else
    let res := s.versionA.Sync env
    match res.err with
    | some e => ({ s with versionA := res.repo }, some ("failed to sync repo A: " ++ e))
    | none => ({ s with versionA := res.repo, activeIsA := true }, none)

/-- `(*site).syncRepos` run over a finite schedule of ticker firings, each
supplying that attempt's provider answers.  Returns the final site state,
the returned error if any, and how many sync attempts were performed; the
loop returns (performing no further attempts) at the first failed sync. -/
def syncRepos : site → List SyncEnv → site × Option String × Nat
  | s, [] => (s, none, 0)
  | s, env :: rest =>
    match syncTick s env with
    | (s', some e) => (s', some e, 1)
    | (s', none) =>
      let r := syncRepos s' rest
      (r.1, r.2.1, r.2.2 + 1)

/-- The goroutine `Serve` spawns around `syncRepos`: any returned error is
logged and `nil` is returned, so the serving loop never stops for it. -/
def syncGoroutine (s : site) (envs : List SyncEnv) : Option String :=
  match syncRepos s envs with
  | _ => none

/-! ## ghclient.go: the caching decorator -/

/-- `cachedGitHubClient` observable state: whether the well-known cache
directory exists, and the files persisted under it. -/
structure cachedGitHubClient where
  cacheDirExists : Bool
  cacheFiles : List (String × Bytes)
deriving DecidableEq, Repr

/-- The files of a tree, as persisted verbatim by the caching walk and as
exposed by a filesystem view: every non-directory entry, keyed by its
slash-joined path. -/
def filesOf (fs : List FSEntry) : List (String × Bytes) :=
  (fs.filter (fun e => !e.isDir)).map
    (fun e => (String.intercalate "/" e.path, e.content))

/-- The persisting walk over a freshly pulled tree: copies files in visit
order, aborting at the first walk error (files copied so far remain). -/
def persistFiles : List FSEntry → List (String × Bytes) × Bool
  | [] => ([], true)
  | e :: rest =>
    if e.err then ([], false)
    else if e.isDir then persistFiles rest
    else
      let r := persistFiles rest
      ((String.intercalate "/" e.path, e.content) :: r.1, r.2)

/-- `(*cachedGitHubClient).LastHash`: the returned fingerprint (`none` =
error) and whether the wrapped live client was contacted. -/
def cachedGitHubClient.LastHash (c : cachedGitHubClient) (live : SyncEnv) :
    Option String × Bool :=
  if c.cacheDirExists then (some "cached-hash", false)
  else (live.lastHash, true)

/-- Outcome of `(*cachedGitHubClient).Contents`: the returned tree view
(characterized by its files; `none` = error), the client's cache state
afterwards, and whether the wrapped live client was contacted. -/
structure ContentsResult where
  files : Option (List (String × Bytes))
  client : cachedGitHubClient
  liveCalled : Bool
deriving DecidableEq, Repr

/-- `(*cachedGitHubClient).Contents`: with the cache directory present,
return the persisted copy without touching the live client; otherwise
delegate, and on success persist every file of the pulled tree (the walk
creates the cache directory) before returning the live view. -/
def cachedGitHubClient.Contents (c : cachedGitHubClient) (live : SyncEnv) :
    ContentsResult :=
  if c.cacheDirExists then ⟨some c.cacheFiles, c, false⟩
  else
    match live.contents with
    | none => ⟨none, c, true⟩
    | some fs =>
      let p := persistFiles fs
      if p.2 then ⟨some (filesOf fs), ⟨true, p.1⟩, true⟩
      else ⟨none, ⟨true, p.1⟩, true⟩

/-- The documents a sync attempt extracts from its environment (empty when
the pull or the extraction fails). -/
def extractedOf (env : SyncEnv) : List document :=
  match env.contents with
  | none => []
  | some fs =>
    match extractDocuments fs with
    | .error _ => []
    | .ok docs => docs

/-! ## Concrete fixtures: small trees and sync environments -/

/-- A well-formed pulled tree: wrapper directory `w`, an index file, a
non-markdown file, and one note. -/
def fsHello : List FSEntry :=
  [⟨["."], true, false, []⟩, ⟨["w"], true, false, []⟩,
   ⟨["w", "README.md"], false, false, "Hello".data⟩,
   ⟨["w", "img.png"], false, false, "P".data⟩,
   ⟨["w", "notes", "today.md"], false, false, "See [link](./other.md)".data⟩]

/-- A pulled tree with a markdown file but no index document. -/
def fsNoIndex : List FSEntry :=
  [⟨["w"], true, false, []⟩, ⟨["w", "a.md"], false, false, "x".data⟩]

/-- A sync attempt whose fingerprint check and pull both succeed. -/
def envHello : SyncEnv := ⟨some "h1", some fsHello⟩

/-- A sync attempt that pulls a tree with no index document. -/
def envNoIndex : SyncEnv := ⟨some "h1", some fsNoIndex⟩

/-- A sync attempt whose fingerprint check fails. -/
def envFail : SyncEnv := ⟨none, none⟩

/-- A fresh site: both slots fresh, `activeRepo` pointing at `versionA`. -/
def site0 : site := ⟨true, newRepo, newRepo⟩

/-- A repo slot state reached by a failed sync against `fsNoIndex`: no
index, but `"a"` already mapped. -/
def repoA1 : repo := (newRepo.Sync envNoIndex).repo

/-- A site whose active slot `versionA` already resolves the path `"a"`. -/
def siteA : site := ⟨true, repoA1, newRepo⟩

/-! ## Map and indexing lemmas -/

theorem getKey_setKey (m : List (String × document)) (k k' : String) (v : document) :
    getKey (setKey m k v) k' = if k' = k then some v else getKey m k' := by
  induction m with
  | nil =>
    by_cases h : k' = k
    · simp [setKey, getKey, h]
    · simp [setKey, getKey, h, Ne.symm h]
  | cons kv rest ih =>
    obtain ⟨k0, v0⟩ := kv
    by_cases h0 : k0 = k
    · subst h0
      by_cases h : k' = k0
      · simp [setKey, getKey, h]
      · simp [setKey, getKey, h, Ne.symm h]
    · by_cases h : k0 = k'
      · subst h
        simp [setKey, getKey, h0, Ne.symm h0]
      · simp [setKey, getKey, h0, h, ih]

theorem foldl_indexStep_hash (docs : List document) : ∀ r : repo,
    (docs.foldl indexStep r).hash = r.hash := by
  induction docs with
  | nil => intro r; rfl
  | cons d rest ih =>
    intro r
    rw [List.foldl_cons, ih]
    unfold indexStep
    split <;> rfl

theorem foldl_indexStep_index (docs : List document) : ∀ r : repo,
    (docs.foldl indexStep r).index =
      (docs.reverse.find? (fun d => decide (d.path = "README.md"))).or r.index := by
  induction docs with
  | nil => intro r; simp
  | cons d rest ih =>
    intro r
    rw [List.foldl_cons, ih, List.reverse_cons, List.find?_append]
    cases h : rest.reverse.find? (fun d => decide (d.path = "README.md")) with
    | some x => simp [Option.or]
    | none =>
      by_cases hd : d.path = "README.md" <;>
        simp [Option.or, indexStep, hd, List.find?]

theorem foldl_indexStep_documents (docs : List document) : ∀ (r : repo) (k : String),
    getKey (docs.foldl indexStep r).documents k =
      (docs.reverse.find?
          (fun d => decide (d.path ≠ "README.md" ∧ trimSuffix d.path ".md" = k))).or
        (getKey r.documents k) := by
  induction docs with
  | nil => intro r k; simp
  | cons d rest ih =>
    intro r k
    rw [List.foldl_cons, ih, List.reverse_cons, List.find?_append]
    cases h : rest.reverse.find?
        (fun d => decide (d.path ≠ "README.md" ∧ trimSuffix d.path ".md" = k)) with
    | some x => simp [Option.or]
    | none =>
      by_cases hd : d.path = "README.md"
      · simp [Option.or, indexStep, hd, List.find?]
      · by_cases hk : trimSuffix d.path ".md" = k
        · simp [Option.or, indexStep, hd, hk, List.find?, getKey_setKey]
        · have hk' : ¬k = trimSuffix d.path ".md" := fun h' => hk h'.symm
          simp [Option.or, indexStep, hd, hk, hk', List.find?, getKey_setKey]

theorem option_or_eq_none {α : Type} (o o' : Option α) :
    o.or o' = none ↔ o = none ∧ o' = none := by
  cases o <;> simp [Option.or]

theorem indexDocuments_fst (r : repo) (docs : List document) :
    (indexDocuments r docs).1 = docs.foldl indexStep r := by
  unfold indexDocuments
  by_cases h : (docs.foldl indexStep r).index = none <;> simp [h]

theorem indexDocuments_snd (r : repo) (docs : List document) :
    (indexDocuments r docs).2 =
      if (docs.foldl indexStep r).index = none then some "no index document found"
      else none := by
  unfold indexDocuments
  by_cases h : (docs.foldl indexStep r).index = none <;> simp [h]

/-! ## Claim C5 -/

/-- C5, counterexample.  The claim says indexing errors if and only if no
document in the list has path `README.md`.  On a slot whose index was set
by an earlier sync (here: the slot built by one successful sync), indexing
an input list with no `README.md` document at all returns no error, because
`indexDocuments` only checks that `r.index` is still nil. -/
theorem indexDocuments_no_error_with_stale_index_cex :
    (¬∃ d ∈ ([] : List document), d.path = "README.md") ∧
    (indexDocuments (newRepo.Sync envHello).repo []).2 = none := by
  constructor
  · simp
  · decide

/-- C5, amended.  Indexing makes the last `README.md` document of the list
the slot's index document (keeping the previously recorded one when the
list has none) and never inserts it into the mapping; every other document
is inserted under its `.md`-stripped path, last-seen wins, on top of the
mapping already present; and it returns an error if and only if the list
has no `README.md` document AND the slot had no index document recorded
already. -/
theorem indexDocuments_characterization (r : repo) (docs : List document) (k : String) :
    ((indexDocuments r docs).2 ≠ none ↔
       (∀ d ∈ docs, d.path ≠ "README.md") ∧ r.index = none) ∧
    ((indexDocuments r docs).1.index =
       (docs.reverse.find? (fun d => decide (d.path = "README.md"))).or r.index) ∧
    (getKey (indexDocuments r docs).1.documents k =
       (docs.reverse.find?
           (fun d => decide (d.path ≠ "README.md" ∧ trimSuffix d.path ".md" = k))).or
         (getKey r.documents k)) := by
  refine ⟨?_, ?_, ?_⟩
  · rw [indexDocuments_snd]
    by_cases h : (docs.foldl indexStep r).index = none
    · simp only [h, if_pos]
      rw [foldl_indexStep_index, option_or_eq_none, List.find?_eq_none] at h
      simp only [ne_eq, reduceCtorEq, not_false_eq_true, true_iff]
      refine ⟨fun d hd => ?_, h.2⟩
      have := h.1 d (List.mem_reverse.mpr hd)
      simpa using this
    · simp only [h, if_neg, not_false_eq_true, ne_eq, not_true_eq_false, false_iff]
      rw [foldl_indexStep_index, option_or_eq_none, List.find?_eq_none] at h
      intro ⟨hall, hidx⟩
      exact h ⟨fun d hd => by simpa using hall d (List.mem_reverse.mp hd), hidx⟩
  · rw [indexDocuments_fst, foldl_indexStep_index]
  · rw [indexDocuments_fst, foldl_indexStep_documents]

/-! ## Claim C3 -/

/-- C3, counterexample.  A sync attempt that pulls a tree with a markdown
file but no index document returns an error, yet the slot's path-keyed
mapping is no longer what it was before the attempt: the extracted
document was already inserted when the error was produced. -/
theorem sync_missing_index_mutates_map_cex :
    (newRepo.Sync envNoIndex).err.isSome = true ∧
    (newRepo.Sync envNoIndex).repo.documents ≠ newRepo.documents := by
  decide

/-- C3, amended.  On every sync error the slot's index document, recorded
fingerprint and the resolvability of every previously mapped path are
preserved, and any state change at all can happen only for the
missing-index error (`LastHash`, `Contents` and extraction failures leave
the slot untouched); in the missing-index case the extracted non-README
documents have already been inserted into the mapping. -/
theorem sync_error_state_preservation (r : repo) (env : SyncEnv)
    (h : (r.Sync env).err.isSome = true) :
    (r.Sync env).repo.index = r.index ∧
    (r.Sync env).repo.hash = r.hash ∧
    (∀ k, (getKey r.documents k).isSome = true →
       (getKey (r.Sync env).repo.documents k).isSome = true) ∧
    ((r.Sync env).repo ≠ r → (r.Sync env).err = some "no index document found") := by
  cases henv : env.lastHash with
  | none => simp [repo.Sync, henv]
  | some h' =>
    by_cases hh : h' = r.hash
    · simp [repo.Sync, henv, hh] at h
    · cases hc : env.contents with
      | none => simp [repo.Sync, henv, hh, hc]
      | some fs =>
        cases hex : extractDocuments fs with
        | error e => simp [repo.Sync, henv, hh, hc, hex]
        | ok docs =>
          simp only [repo.Sync, henv, hh, hc, hex, if_neg, if_false] at h ⊢
          have hnone : (docs.foldl indexStep r).index = none := by
            by_contra hx
            rw [indexDocuments_snd] at h
            simp [hx] at h
          have hor := foldl_indexStep_index docs r
          rw [hnone] at hor
          have hridx : r.index = none := ((option_or_eq_none _ _).mp hor.symm).2
          refine ⟨?_, ?_, ?_, ?_⟩
          · rw [indexDocuments_fst, hnone, hridx]
          · rw [indexDocuments_fst, foldl_indexStep_hash]
          · intro k hk
            rw [indexDocuments_fst, foldl_indexStep_documents]
            cases hf : docs.reverse.find?
                (fun d => decide (d.path ≠ "README.md" ∧ trimSuffix d.path ".md" = k)) with
            | none => simpa [Option.or] using hk
            | some x => simp [Option.or]
          · intro _
            rw [indexDocuments_snd, hnone]
            simp

/-- C3, witness for `sync_error_state_preservation` at the missing-index
environment. -/
theorem sync_error_state_preservation_witness :
    ((newRepo.Sync envNoIndex).err.isSome = true) ∧
    (newRepo.Sync envNoIndex).repo.index = newRepo.index ∧
    (newRepo.Sync envNoIndex).repo.hash = newRepo.hash ∧
    ((getKey newRepo.documents "a").isSome = true →
       (getKey (newRepo.Sync envNoIndex).repo.documents "a").isSome = true) ∧
    (newRepo.Sync envNoIndex).err = some "no index document found" :=
  ⟨by decide,
   (sync_error_state_preservation newRepo envNoIndex (by decide)).1,
   (sync_error_state_preservation newRepo envNoIndex (by decide)).2.1,
   (sync_error_state_preservation newRepo envNoIndex (by decide)).2.2.1 "a",
   (sync_error_state_preservation newRepo envNoIndex (by decide)).2.2.2 (by decide)⟩

/-! ## Claim C10 -/

/-- C10.  No sync removes a mapping entry: every path resolvable in a slot
before a `Sync` call (successful or failed) is still resolvable after it;
and when none of the documents extracted by the attempt lands on a given
path, that path's mapping entry is exactly what it was before — a file
that disappeared from the pulled tree keeps resolving to the old
document. -/
theorem sync_preserves_document_entries (r : repo) (env : SyncEnv) (k : String) :
    ((getKey r.documents k).isSome = true →
       (getKey (r.Sync env).repo.documents k).isSome = true) ∧
    ((∀ d ∈ extractedOf env, trimSuffix d.path ".md" ≠ k) →
       getKey (r.Sync env).repo.documents k = getKey r.documents k) := by
  cases henv : env.lastHash with
  | none => simp [repo.Sync, henv]
  | some h' =>
    by_cases hh : h' = r.hash
    · simp [repo.Sync, henv, hh]
    · cases hc : env.contents with
      | none => simp [repo.Sync, henv, hh, hc]
      | some fs =>
        cases hex : extractDocuments fs with
        | error e => simp [repo.Sync, henv, hh, hc, hex]
        | ok docs =>
          constructor
          · intro hk
            simp only [repo.Sync, henv, hh, hc, hex, if_neg, if_false]
            rw [indexDocuments_fst, foldl_indexStep_documents]
            cases hf : docs.reverse.find?
                (fun d => decide (d.path ≠ "README.md" ∧ trimSuffix d.path ".md" = k)) with
            | none => simpa [Option.or] using hk
            | some x => simp [Option.or]
          · intro hnd
            simp only [extractedOf, hc, hex] at hnd
            simp only [repo.Sync, henv, hh, hc, hex, if_neg, if_false]
            rw [indexDocuments_fst, foldl_indexStep_documents]
            have hf : docs.reverse.find?
                (fun d => decide (d.path ≠ "README.md" ∧ trimSuffix d.path ".md" = k)) = none := by
              rw [List.find?_eq_none]
              intro x hx
              simp only [decide_eq_true_eq, not_and]
              intro _
              exact hnd x (List.mem_reverse.mp hx)
            rw [hf]
            simp [Option.or]

/-- C10, witness: the slot built by the failed `fsNoIndex` sync maps
`"a"`; a later successful sync of `fsHello` (which contains no file
`a.md`) keeps `"a"` mapped, unchanged. -/
theorem sync_preserves_document_entries_witness :
    ((getKey (newRepo.Sync envNoIndex).repo.documents "a").isSome = true →
       (getKey ((newRepo.Sync envNoIndex).repo.Sync envHello).repo.documents "a").isSome = true) ∧
    getKey ((newRepo.Sync envNoIndex).repo.Sync envHello).repo.documents "a" =
      getKey (newRepo.Sync envNoIndex).repo.documents "a" :=
  ⟨(sync_preserves_document_entries (newRepo.Sync envNoIndex).repo envHello "a").1,
   (sync_preserves_document_entries (newRepo.Sync envNoIndex).repo envHello "a").2
     (by decide)⟩

/-! ## Claim C1 -/

/-- C1: the code slips.  `(*repo).Sync` never assigns `r.hash`, so the
fingerprint recorded for a slot stays the zero value forever — a
snapshot-building sync records nothing.  Concretely: a first sync against
`envHello` (fingerprint `"h1"`) succeeds and pulls, yet leaves the
recorded fingerprint `""`; a second sync observing the very same
fingerprint `"h1"` invokes `Contents` (a second full-tree pull) instead of
being the claimed no-op.  This contradicts the intent both of the spec and
of ghclient.go's own stable-hash comment. -/
theorem sync_refetches_despite_equal_fingerprint :
    (newRepo.Sync envHello).err = none ∧
    (newRepo.Sync envHello).pulled = true ∧
    (newRepo.Sync envHello).repo.hash = "" ∧
    ((newRepo.Sync envHello).repo.Sync envHello).pulled = true := by
  decide

/-! ## Claim C4 -/

/-- C4.  The active selector flips only as the single state-update step
after a successful sync of the inactive slot: when the sync attempt of a
tick fails, the selector and the active slot are exactly what they were
before the tick, so every path resolvable in the active snapshot stays
resolvable; and whenever the selector did change, the tick's sync
returned success. -/
theorem selector_flips_only_on_success (s : site) (env : SyncEnv) :
    ((syncTick s env).2.isSome = true →
       (syncTick s env).1.activeIsA = s.activeIsA ∧
       (syncTick s env).1.activeRepo = s.activeRepo) ∧
    ((syncTick s env).1.activeIsA ≠ s.activeIsA → (syncTick s env).2 = none) ∧
    (∀ k, (syncTick s env).2.isSome = true →
       (getKey s.activeRepo.documents k).isSome = true →
       (getKey (syncTick s env).1.activeRepo.documents k).isSome = true) := by
  cases hA : s.activeIsA
  · cases he : (s.versionA.Sync env).err with
    | none => simp [syncTick, site.activeRepo, hA, he]
    | some e => simp [syncTick, site.activeRepo, hA, he]
  · cases he : (s.versionB.Sync env).err with
    | none => simp [syncTick, site.activeRepo, hA, he]
    | some e => simp [syncTick, site.activeRepo, hA, he]

/-- C4, witness: a failed tick on a site whose active slot resolves `"a"`
leaves selector, active slot and resolvability unchanged; a successful
tick that does flip the selector indeed reported no error. -/
theorem selector_flips_only_on_success_witness :
    ((syncTick siteA envFail).1.activeIsA = siteA.activeIsA ∧
       (syncTick siteA envFail).1.activeRepo = siteA.activeRepo) ∧
    (getKey (syncTick siteA envFail).1.activeRepo.documents "a").isSome = true ∧
    (syncTick site0 envHello).2 = none :=
  ⟨(selector_flips_only_on_success siteA envFail).1 (by decide),
   (selector_flips_only_on_success siteA envFail).2.2 "a" (by decide) (by decide),
   (selector_flips_only_on_success site0 envHello).2.1 (by decide)⟩

/-! ## Claim C2 -/

/-- C2, counterexample.  With two scheduled intervals and a sync failure at
the first, the refresh loop performs only one sync attempt: `syncRepos`
returns the error instead of waiting for the next interval, so the second
scheduled sync never happens (the claim requires two attempts). -/
theorem syncRepos_halts_after_first_failure_cex :
    (syncRepos site0 [envFail, envHello]).2.2 = 1 ∧
    (syncRepos site0 [envFail, envHello]).2.2 ≠ 2 ∧
    (syncRepos site0 [envFail, envHello]).2.1 =
      some "failed to sync repo B: failed to get last hash" := by
  decide

/-- C2, amended.  A failed background sync terminates the periodic refresh
loop: `syncRepos` returns the wrapped error after that single attempt, no
matter how many further intervals were scheduled.  The error is only
logged by the goroutine `Serve` spawns, which always returns nil, so the
serving loop itself is never stopped by a sync error. -/
theorem syncRepos_failure_ends_loop_not_serving (s : site) (env : SyncEnv)
    (rest : List SyncEnv) (h : (syncTick s env).2.isSome = true) :
    syncRepos s (env :: rest) = ((syncTick s env).1, (syncTick s env).2, 1) ∧
    syncGoroutine s (env :: rest) = none := by
  refine ⟨?_, rfl⟩
  cases ht : syncTick s env with
  | mk s' e =>
    cases e with
    | none => rw [ht] at h; simp at h
    | some msg => simp [syncRepos, ht]

/-- C2, witness for `syncRepos_failure_ends_loop_not_serving` at the
concrete two-interval schedule. -/
theorem syncRepos_failure_ends_loop_not_serving_witness :
    ((syncTick site0 envFail).2.isSome = true) ∧
    syncRepos site0 [envFail, envHello] =
      ((syncTick site0 envFail).1, (syncTick site0 envFail).2, 1) ∧
    syncGoroutine site0 [envFail, envHello] = none :=
  ⟨by decide,
   (syncRepos_failure_ends_loop_not_serving site0 envFail [envHello] (by decide)).1,
   (syncRepos_failure_ends_loop_not_serving site0 envFail [envHello] (by decide)).2⟩

/-! ## Claim C6 -/

/-- C6.  On a readable tree (no walk/read failures), extraction succeeds
and produces exactly one document per non-directory entry whose file name
ends in `.md` — directories and files with any other suffix are skipped —
and each document's logical path is the entry's path with its first
segment (the archive wrapper directory) removed.  The source's redundant
`README.md` disjunct changes nothing, since that name ends in `.md`. -/
theorem extractDocuments_spec (fs : List FSEntry) (h : ∀ e ∈ fs, e.err = false) :
    extractDocuments fs =
      .ok ((fs.filter (fun e => !e.isDir && hasSuffix e.name ".md")).map
        (fun e => newDocument (String.intercalate "/" e.path.tail) e.content)) := by
  induction fs with
  | nil => rfl
  | cons e rest ih =>
    have he : e.err = false := h e (List.mem_cons_self e rest)
    have hrest : ∀ x ∈ rest, x.err = false := fun x hx => h x (List.mem_cons_of_mem e hx)
    by_cases hdir : e.isDir
    · simp [extractDocuments, he, hdir, ih hrest]
    · by_cases hs : hasSuffix e.name ".md" = true
      · have hkeep : ¬(e.name ≠ "README.md" ∧ hasSuffix e.name ".md" = false) := by
          simp [hs]
        simp [extractDocuments, he, hdir, hkeep, hs, ih hrest]
      · have hnr : e.name ≠ "README.md" := by
          intro hr
          rw [hr] at hs
          exact hs (by decide)
        have hskip : e.name ≠ "README.md" ∧ hasSuffix e.name ".md" = false :=
          ⟨hnr, by simpa using hs⟩
        simp [extractDocuments, he, hdir, hskip, hs, ih hrest]

/-- C6, witness at the concrete tree `fsHello`: the `.png` file and both
directories are skipped, both `.md` files appear with the wrapper segment
`w` stripped. -/
theorem extractDocuments_spec_witness :
    (∀ e ∈ fsHello, e.err = false) ∧
    extractDocuments fsHello =
      .ok ((fsHello.filter (fun e => !e.isDir && hasSuffix e.name ".md")).map
        (fun e => newDocument (String.intercalate "/" e.path.tail) e.content)) :=
  ⟨by decide, extractDocuments_spec fsHello (by decide)⟩

/-! ## Claim C8 -/

/-- C8.  For every document and every (pure) markdown transform, calling
`Render` twice in sequence returns byte-identical output both times, and
the second call performs no re-transformation: it answers from the cache
written by the first call. -/
theorem render_idempotent_and_memoized (transform : Bytes → Bytes) (d : document) :
    ((d.Render transform).doc.Render transform).out = (d.Render transform).out ∧
    ((d.Render transform).doc.Render transform).transformed = false := by
  cases hc : d.cache <;> simp [document.Render, hc]

/-! ## Claim C9 -/

theorem persistFiles_ok (fs : List FSEntry) (h : ∀ e ∈ fs, e.err = false) :
    persistFiles fs = (filesOf fs, true) := by
  induction fs with
  | nil => rfl
  | cons e rest ih =>
    have he : e.err = false := h e (List.mem_cons_self e rest)
    have hrest : ∀ x ∈ rest, x.err = false := fun x hx => h x (List.mem_cons_of_mem e hx)
    by_cases hdir : e.isDir <;>
      simp [persistFiles, filesOf, he, hdir, ih hrest]

/-- C9.  When the well-known cache directory exists — whatever it holds —
`LastHash` answers the fixed sentinel `"cached-hash"` and `Contents`
answers the persisted local copy, neither contacting the wrapped live
source; when it does not exist both operations delegate to the live
source, and a successful delegated `Contents` has persisted every file of
the returned tree into the (now existing) cache before returning. -/
theorem cachedClient_shortcircuit_and_persist (c : cachedGitHubClient) (live : SyncEnv) :
    (c.cacheDirExists = true →
       c.LastHash live = (some "cached-hash", false) ∧
       c.Contents live = ⟨some c.cacheFiles, c, false⟩) ∧
    (c.cacheDirExists = false →
       c.LastHash live = (live.lastHash, true) ∧
       (c.Contents live).liveCalled = true ∧
       (∀ fs, live.contents = some fs → (∀ e ∈ fs, e.err = false) →
          (c.Contents live).files = some (filesOf fs) ∧
          (c.Contents live).client = ⟨true, filesOf fs⟩)) := by
  constructor
  · intro hc
    exact ⟨by simp [cachedGitHubClient.LastHash, hc],
           by simp [cachedGitHubClient.Contents, hc]⟩
  · intro hc
    refine ⟨by simp [cachedGitHubClient.LastHash, hc], ?_, ?_⟩
    · cases hl : live.contents with
      | none => simp [cachedGitHubClient.Contents, hc, hl]
      | some fs =>
        by_cases hp : (persistFiles fs).2 = true <;>
          simp [cachedGitHubClient.Contents, hc, hl, hp]
    · intro fs hl herr
      rw [show c.Contents live = ⟨some (filesOf fs), ⟨true, filesOf fs⟩, true⟩ from ?_]
      · exact ⟨rfl, rfl⟩
      · simp [cachedGitHubClient.Contents, hc, hl, persistFiles_ok fs herr]

/-- C9, witness: a client with the cache directory present (holding one
file) short-circuits both calls; a cacheless client delegates and, on the
successful `fsHello` pull, persists all three files. -/
theorem cachedClient_shortcircuit_and_persist_witness :
    ((cachedGitHubClient.mk true [("f", "x".data)]).LastHash envHello =
       (some "cached-hash", false) ∧
     (cachedGitHubClient.mk true [("f", "x".data)]).Contents envHello =
       ⟨some [("f", "x".data)], ⟨true, [("f", "x".data)]⟩, false⟩) ∧
    ((cachedGitHubClient.mk false []).LastHash envHello = (some "h1", true) ∧
     (cachedGitHubClient.mk false []).Contents envHello =
       ⟨some (filesOf fsHello), ⟨true, filesOf fsHello⟩, true⟩) := by
  constructor
  · exact (cachedClient_shortcircuit_and_persist
      (cachedGitHubClient.mk true [("f", "x".data)]) envHello).1 rfl
  · constructor
    · exact (cachedClient_shortcircuit_and_persist
        (cachedGitHubClient.mk false []) envHello).2 rfl |>.1
    · have h := ((cachedClient_shortcircuit_and_persist
        (cachedGitHubClient.mk false []) envHello).2 rfl).2.2 fsHello rfl (by decide)
      have hlc := ((cachedClient_shortcircuit_and_persist
        (cachedGitHubClient.mk false []) envHello).2 rfl).2.1
      cases hr : (cachedGitHubClient.mk false []).Contents envHello with
      | mk fl cl lc =>
        rw [hr] at h hlc
        simp only at h hlc
        rw [h.1, h.2, hlc]

/-! ## Claim C7: regex-match lemmas -/

theorem splitUntil_decomp (stop : Char) :
    ∀ (l a b : List Char), splitUntil stop l = some (a, b) → l = a ++ stop :: b := by
  intro l
  induction l with
  | nil => intro a b h; simp [splitUntil] at h
  | cons c rest ih =>
    intro a b h
    rw [splitUntil] at h
    by_cases hc : c = stop
    · rw [if_pos hc] at h
      injection h with h'
      injection h' with h1 h2
      subst hc
      rw [← h1, ← h2]
      rfl
    · rw [if_neg hc] at h
      cases h1 : splitUntil stop rest with
      | none => rw [h1] at h; simp at h
      | some ab =>
        obtain ⟨a0, b0⟩ := ab
        rw [h1] at h
        injection h with h'
        injection h' with h2 h3
        rw [← h2, ← h3]
        rw [ih a0 b0 h1]
        rfl

theorem splitUntil_app (stop : Char) :
    ∀ (a b : List Char), (∀ c ∈ a, c ≠ stop) →
      splitUntil stop (a ++ stop :: b) = some (a, b) := by
  intro a
  induction a with
  | nil => intro b _; simp [splitUntil]
  | cons c a0 ih =>
    intro b h
    have hc : c ≠ stop := h c (List.mem_cons_self c a0)
    have ha0 : ∀ x ∈ a0, x ≠ stop := fun x hx => h x (List.mem_cons_of_mem c hx)
    simp only [List.cons_append, splitUntil, if_neg hc, List.append_eq, ih b ha0]

theorem matchLinkAt_nil : matchLinkAt [] = none := rfl

theorem matchLinkAt_not_bracket (c : Char) (rest : List Char) (hc : c ≠ '[') :
    matchLinkAt (c :: rest) = none := by
  simp [matchLinkAt, hc]

theorem matchRegion_some (t region rest4 out rest' : List Char)
    (h : matchRegion t region rest4 = some (out, rest')) : rest' = rest4 := by
  unfold matchRegion at h
  by_cases hq : 4 ≤ region.length ∧ ['.', 'm', 'd'].isSuffixOf region
  · rw [if_pos hq] at h
    injection h with h'
    injection h' with hout hrest
    exact hrest.symm
  · rw [if_neg hq] at h
    simp at h

theorem matchTarget_length (t rest2 out rest' : List Char)
    (h : matchTarget t rest2 = some (out, rest')) : rest'.length < rest2.length := by
  match rest2, h with
  | [], h => simp [matchTarget] at h
  | [c1], h => simp [matchTarget] at h
  | [c1, c2], h => simp [matchTarget] at h
  | c1 :: c2 :: c3 :: rest3, h =>
    unfold matchTarget at h
    simp only [] at h
    by_cases hp : c1 = '(' ∧ c2 = '.' ∧ c3 = '/'
    · rw [if_pos hp] at h
      cases h2 : splitUntil ')' rest3 with
      | none => rw [h2] at h; simp at h
      | some rr =>
        obtain ⟨region, rest4⟩ := rr
        rw [h2] at h
        simp only [] at h
        have hr := matchRegion_some t region rest4 out rest' h
        have e2 : rest3 = region ++ ')' :: rest4 :=
          splitUntil_decomp ')' rest3 region rest4 h2
        have l2 : rest3.length = region.length + 1 + rest4.length := by
          rw [e2]; simp [List.length_append]; omega
        rw [hr]
        simp only [List.length_cons]
        omega
    · rw [if_neg hp] at h
      simp at h

theorem matchText_length (rest out rest' : List Char)
    (h : matchText rest = some (out, rest')) : rest'.length < rest.length := by
  unfold matchText at h
  cases h1 : splitUntil ']' rest with
  | none => rw [h1] at h; simp at h
  | some tr =>
    obtain ⟨t, rest2⟩ := tr
    rw [h1] at h
    simp only [] at h
    by_cases ht : t = []
    · rw [if_pos ht] at h; simp at h
    · rw [if_neg ht] at h
      have hl := matchTarget_length t rest2 out rest' h
      have e1 : rest = t ++ ']' :: rest2 := splitUntil_decomp ']' rest t rest2 h1
      have l1 : rest.length = t.length + 1 + rest2.length := by
        rw [e1]; simp [List.length_append]; omega
      omega

theorem matchLinkAt_bracket (rest : List Char) :
    matchLinkAt ('[' :: rest) = matchText rest := rfl

theorem matchLinkAt_length (cs out rest' : List Char)
    (h : matchLinkAt cs = some (out, rest')) : rest'.length < cs.length := by
  match cs with
  | [] => simp [matchLinkAt] at h
  | c :: rest =>
    by_cases hc : c = '['
    · subst hc
      rw [matchLinkAt_bracket] at h
      have := matchText_length rest out rest' h
      simp only [List.length_cons]
      omega
    · rw [matchLinkAt_not_bracket c rest hc] at h
      simp at h

theorem rewriteAux_nil (fuel : Nat) : rewriteAux fuel [] = [] := by
  cases fuel <;> rfl

theorem rewriteAux_congr (fuel₁ : Nat) : ∀ (fuel₂ : Nat) (cs : List Char),
    cs.length ≤ fuel₁ → cs.length ≤ fuel₂ →
    rewriteAux fuel₁ cs = rewriteAux fuel₂ cs := by
  induction fuel₁ with
  | zero =>
    intro fuel₂ cs h1 _
    have : cs = [] := List.eq_nil_of_length_eq_zero (Nat.le_zero.mp h1)
    rw [this, rewriteAux_nil, rewriteAux_nil]
  | succ f ih =>
    intro fuel₂ cs h1 h2
    cases cs with
    | nil => rw [rewriteAux_nil, rewriteAux_nil]
    | cons c rest =>
      cases fuel₂ with
      | zero => simp at h2
      | succ g =>
        simp only [rewriteAux]
        cases hm : matchLinkAt (c :: rest) with
        | some pr =>
          obtain ⟨out, rest'⟩ := pr
          have hl := matchLinkAt_length (c :: rest) out rest' hm
          simp only [List.length_cons] at h1 h2 hl
          exact congrArg (out ++ ·) (ih g rest' (by omega) (by omega))
        | none =>
          simp only [List.length_cons] at h1 h2
          exact congrArg (c :: ·) (ih g rest (by omega) (by omega))

theorem rewriteLinks_step (cs out rest' : List Char)
    (h : matchLinkAt cs = some (out, rest')) :
    rewriteLinks cs = out ++ rewriteLinks rest' := by
  cases cs with
  | nil => simp [matchLinkAt] at h
  | cons c rest =>
    have hl := matchLinkAt_length (c :: rest) out rest' h
    unfold rewriteLinks
    simp only [List.length_cons, rewriteAux, h]
    refine congrArg (out ++ ·) (rewriteAux_congr rest.length rest'.length rest' ?_ le_rfl)
    simp only [List.length_cons] at hl
    omega

theorem rewriteLinks_skip (c : Char) (rest : List Char)
    (h : matchLinkAt (c :: rest) = none) :
    rewriteLinks (c :: rest) = c :: rewriteLinks rest := by
  unfold rewriteLinks
  simp only [List.length_cons, rewriteAux, h]

theorem rewriteLinks_of_no_match : ∀ (cs : List Char),
    (∀ cs₂, cs₂ <:+ cs → matchLinkAt cs₂ = none) → rewriteLinks cs = cs := by
  intro cs
  induction cs with
  | nil => intro _; rfl
  | cons c rest ih =>
    intro h
    rw [rewriteLinks_skip c rest (h (c :: rest) (List.suffix_refl _))]
    rw [ih (fun cs₂ hs => h cs₂ (hs.trans (List.suffix_cons c rest)))]

/-! ## Claim C7: the claim theorems -/

/-- C7, counterexample.  `other.md` is a same-tree relative link target
ending in `.md`, yet document construction leaves it untouched: the
pattern demands the target start with `./`.  The claim's required output
(suffix stripped) differs from what the code produces. -/
theorem link_rewrite_requires_dotslash_cex :
    (newDocument "notes/today" "See [link](other.md)".data).contents =
      "See [link](other.md)".data ∧
    "See [link](other.md)".data ≠ "See [link](other)".data := by
  constructor
  · decide
  · decide

/-- C7, amended.  Document construction rewrites exactly the markdown
links whose target starts with `./` and ends with `.md`, deleting that
final `.md`; a link whose target does not start with `./` — an external
URL, or a bare relative path — is left unchanged. -/
theorem link_rewrite_spec :
    (∀ (t p : List Char), t ≠ [] → (∀ c ∈ t, c ≠ ']') → p ≠ [] → (∀ c ∈ p, c ≠ ')') →
       rewriteLinks ('[' :: (t ++ ']' :: '(' :: '.' :: '/' :: (p ++ ['.', 'm', 'd', ')']))) =
         '[' :: (t ++ ']' :: '(' :: '.' :: '/' :: (p ++ [')']))) ∧
    (∀ (t q : List Char), (∀ c ∈ t, c ≠ ']' ∧ c ≠ '[') →
       (∀ c ∈ q, c ≠ ')' ∧ c ≠ '[') → q.take 2 ≠ ['.', '/'] →
       rewriteLinks ('[' :: (t ++ ']' :: '(' :: (q ++ [')']))) =
         '[' :: (t ++ ']' :: '(' :: (q ++ [')'])))  := by
  constructor
  · intro t p ht htn hp hpn
    have hsplit1 : splitUntil ']' (t ++ ']' :: '(' :: '.' :: '/' :: (p ++ ['.', 'm', 'd', ')'])) =
        some (t, '(' :: '.' :: '/' :: (p ++ ['.', 'm', 'd', ')'])) :=
      splitUntil_app ']' t _ htn
    have hmd : ∀ c ∈ p ++ ['.', 'm', 'd'], c ≠ ')' := by
      intro c hc
      rcases List.mem_append.mp hc with h | h
      · exact hpn c h
      · simp at h
        rcases h with rfl | rfl | rfl <;> decide
    have hsplit2 : splitUntil ')' (p ++ ['.', 'm', 'd', ')']) = some (p ++ ['.', 'm', 'd'], []) := by
      have e : p ++ ['.', 'm', 'd', ')'] = (p ++ ['.', 'm', 'd']) ++ ')' :: [] := by simp
      rw [e]
      exact splitUntil_app ')' (p ++ ['.', 'm', 'd']) [] hmd
    have hlen : 4 ≤ (p ++ ['.', 'm', 'd']).length := by
      have : 1 ≤ p.length := List.length_pos.mpr hp
      simp [List.length_append]
      omega
    have hsuf : (['.', 'm', 'd'] : List Char).isSuffixOf (p ++ ['.', 'm', 'd']) := by
      simp [List.isSuffixOf]
    have htake : (p ++ ['.', 'm', 'd']).take ((p ++ ['.', 'm', 'd']).length - 3) = p := by
      have e : (p ++ ['.', 'm', 'd']).length - 3 = p.length := by
        simp [List.length_append]
      rw [e]
      exact List.take_left p ['.', 'm', 'd']
    have s2 : matchRegion t (p ++ ['.', 'm', 'd']) [] =
        some ('[' :: (t ++ ']' :: '(' :: '.' :: '/' :: (p ++ [')'])), []) := by
      unfold matchRegion
      rw [if_pos ⟨hlen, hsuf⟩, htake]
      simp
    have s1 : matchTarget t ('(' :: '.' :: '/' :: (p ++ ['.', 'm', 'd', ')'])) =
        matchRegion t (p ++ ['.', 'm', 'd']) [] := by
      simp [matchTarget, hsplit2]
    have s0 : matchText (t ++ ']' :: '(' :: '.' :: '/' :: (p ++ ['.', 'm', 'd', ')'])) =
        some ('[' :: (t ++ ']' :: '(' :: '.' :: '/' :: (p ++ [')'])), []) := by
      unfold matchText
      rw [hsplit1]
      simp only []
      rw [if_neg ht, s1, s2]
    have hm : matchLinkAt ('[' :: (t ++ ']' :: '(' :: '.' :: '/' :: (p ++ ['.', 'm', 'd', ')']))) =
        some ('[' :: (t ++ ']' :: '(' :: '.' :: '/' :: (p ++ [')'])), []) := by
      rw [matchLinkAt_bracket, s0]
    rw [rewriteLinks_step _ _ [] hm]
    simp [rewriteLinks, rewriteAux]
  · intro t q htq hqq hq2
    apply rewriteLinks_of_no_match
    intro cs₂ hs
    rcases List.suffix_cons_iff.mp hs with rfl | hs'
    · rw [matchLinkAt_bracket]
      have hsp : splitUntil ']' (t ++ ']' :: '(' :: (q ++ [')'])) =
          some (t, '(' :: (q ++ [')'])) :=
        splitUntil_app ']' t _ (fun c hc => (htq c hc).1)
      unfold matchText
      rw [hsp]
      simp only []
      by_cases ht : t = []
      · rw [if_pos ht]
      · rw [if_neg ht]
        cases q with
        | nil => simp [matchTarget]
        | cons q1 qrest =>
          cases qrest with
          | nil =>
            have : ¬(')' : Char) = '/' := by decide
            simp [matchTarget, this]
          | cons q2 qrest2 =>
            unfold matchTarget
            simp only [List.cons_append]
            rw [if_neg]
            intro hcc
            exact hq2 (by simp [hcc.2.1, hcc.2.2])
    · cases cs₂ with
      | nil => exact matchLinkAt_nil
      | cons d ds =>
        refine matchLinkAt_not_bracket d ds ?_
        have hd : d ∈ t ++ ']' :: '(' :: (q ++ [')']) :=
          hs'.subset (List.mem_cons_self d ds)
        rcases List.mem_append.mp hd with h | h
        · exact (htq d h).2
        · simp only [List.mem_cons] at h
          rcases h with rfl | rfl | h
          · decide
          · decide
          · rcases List.mem_append.mp h with h | h
            · exact (hqq d h).2
            · simp at h
              subst h
              decide

/-- C7, witness for `link_rewrite_spec`: `[link](./other.md)` is stripped
to `[link](./other)`; the external `[x](http://e.com/a.md)` is untouched. -/
theorem link_rewrite_spec_witness :
    rewriteLinks ('[' :: ("link".data ++ ']' :: '(' :: '.' :: '/' ::
        ("other".data ++ ['.', 'm', 'd', ')']))) =
      '[' :: ("link".data ++ ']' :: '(' :: '.' :: '/' :: ("other".data ++ [')'])) ∧
    rewriteLinks ('[' :: ("x".data ++ ']' :: '(' :: ("http://e.com/a.md".data ++ [')']))) =
      '[' :: ("x".data ++ ']' :: '(' :: ("http://e.com/a.md".data ++ [')'])) :=
  ⟨link_rewrite_spec.1 "link".data "other".data (by decide) (by decide) (by decide) (by decide),
   link_rewrite_spec.2 "x".data "http://e.com/a.md".data (by decide) (by decide) (by decide)⟩
